import Mathlib

/-!
Shallow embedding of the two analysis scripts of this repository:
`code_churn_measurement.py` (git `--numstat` parsing and churn aggregation)
and `defect_forecast_streamlit.py` (defect-inflow forecasting and column
auto-detection).

Modelling conventions: Python strings are Lean `String` / `List Char`
(string scanning is done at the character level so that every definition
evaluates by kernel reduction); Python arbitrary-precision integers are
`Int`; the dashboard's IEEE-754 float arithmetic (`np.mean`, the EWMA
recurrence, the degree-1 least-squares fit) is modelled exactly by `ℚ`.
Each definition follows the corresponding source function; deviations
forced by totality are noted at the definition they concern.
-/

/-! ### Python string primitives -/

/-- The whitespace characters `str.strip()` (and `int()`) remove at the ends
of a string, restricted to the ASCII range the scripts can meet. -/
def isPySpace (c : Char) : Bool :=
  c = ' ' || c = '\t' || c = '\n' || c = '\r' || c = '\x0b' || c = '\x0c'

/-- Python `str.strip()` on a character list: drop whitespace from both ends. -/
def stripChars (cs : List Char) : List Char :=
  ((cs.dropWhile isPySpace).reverse.dropWhile isPySpace).reverse

/-- Python `line.strip()`. -/
def pyStrip (s : String) : String := String.mk (stripChars s.data)

/-- Splitting on a single separator character, keeping empty segments, as
Python `s.split(sep)` with an explicit one-character separator does. -/
def splitOnChar (sep : Char) : List Char → List (List Char)
  | [] => [[]]
  | c :: cs =>
    if c = sep then [] :: splitOnChar sep cs
    else
      match splitOnChar sep cs with
      | [] => [[c]]
      | h :: t => (c :: h) :: t

/-- Whether the first list is an initial segment of the second
(Python `str.startswith`). -/
def isPrefixCh : List Char → List Char → Bool
  | [], _ => true
  | _ :: _, [] => false
  | a :: as, b :: bs => a == b && isPrefixCh as bs

/-- Python substring containment `needle in hay`. -/
def containsSub (needle : List Char) : List Char → Bool
  | [] => isPrefixCh needle []
  | c :: t => isPrefixCh needle (c :: t) || containsSub needle t

/-- Python `str.lower()` (ASCII case mapping, which covers every header the
dashboard reads). -/
def lowerStr (s : String) : List Char := s.data.map Char.toLower

/-- Valid continuation of a Python integer literal after its first digit:
digits, with single underscores allowed only between digits. -/
def pyDigitsRest : List Char → Bool
  | [] => true
  | '_' :: c :: cs => c.isDigit && pyDigitsRest cs
  | ['_'] => false
  | c :: cs => c.isDigit && pyDigitsRest cs

/-- A non-empty digit string in Python `int()` syntax (underscore grouping). -/
def pyDigits : List Char → Bool
  | [] => false
  | c :: cs => c.isDigit && pyDigitsRest cs

/-- Numeric value of a digit-and-underscore list (underscores ignored). -/
def digitsVal (cs : List Char) : Nat :=
  cs.foldl (fun n c => if c = '_' then n else n * 10 + (c.toNat - 48)) 0

/-- Python `int(s)` on a string: surrounding whitespace is stripped, then an
optional sign and a digit string; `none` models the raised `ValueError`. -/
def pyInt? (s : String) : Option Int :=
  match stripChars s.data with
  | '+' :: rest => if pyDigits rest then some (digitsVal rest : Int) else none
  | '-' :: rest => if pyDigits rest then some (-(digitsVal rest : Int)) else none
  | rest => if pyDigits rest then some (digitsVal rest : Int) else none

/-- Python `str.splitlines()` restricted to the line boundaries git emits
(`\n`, `\r`, `\r\n`); no trailing empty line is produced. The first argument
accumulates the current line in reverse. -/
def splitlinesAux : List Char → List Char → List String
  | acc, [] => if acc.isEmpty then [] else [String.mk acc.reverse]
  | acc, '\r' :: '\n' :: cs => String.mk acc.reverse :: splitlinesAux [] cs
  | acc, '\r' :: cs => String.mk acc.reverse :: splitlinesAux [] cs
  | acc, '\n' :: cs => String.mk acc.reverse :: splitlinesAux [] cs
  | acc, c :: cs => splitlinesAux (c :: acc) cs

/-- Python `stdout.splitlines()`. -/
def splitlines (s : String) : List String := splitlinesAux [] s.data

namespace Churn

/-! ### `code_churn_measurement.py` -/

/-- One `(added, removed, file_path)` tuple produced by the numstat parser. -/
structure ChurnRecord where
  added : Int
  removed : Int
  path : String
deriving DecidableEq

/-- One iteration of the `parse_git_numstat` loop: strip the line, skip it if
empty or a commit header, require exactly three tab-separated fields, and
require the first two to parse as integers (the `-` placeholder of binary
files fails this); `none` is a silently skipped line. -/
def parseNumstatLine (line : String) : Option ChurnRecord :=
  if (pyStrip line).data = [] then none
  else if isPrefixCh "commit".data (pyStrip line).data then none
  else
    match (splitOnChar '\t' (pyStrip line).data).map String.mk with
    | [a, r, p] =>
      match pyInt? a, pyInt? r with
      | some ai, some ri => some ⟨ai, ri, p⟩
      | _, _ => none
    | _ => none

/-- `parse_git_numstat`: best-effort parse of every line, collecting the
records of the lines that survive the policy above. -/
def parse_git_numstat (lines : List String) : List ChurnRecord :=
  lines.filterMap parseNumstatLine

/-- Normalised path components, as `PurePosixPath(path).parts` less the root:
splitting on `/` drops empty and `.` segments. -/
def pathParts (path : String) : List (List Char) :=
  (splitOnChar '/' path.data).filter (fun seg => seg != [] && seg != ['.'])

/-- Whether the path is POSIX-absolute (leading slash), which gives a
`PurePosixPath` a root. -/
def isAbs (path : String) : Bool :=
  match path.data with
  | '/' :: _ => true
  | _ => false

/-- Render a directory from its root flag and its components, as
`PurePosixPath.as_posix()` does: no components yields `"."`
(or `"/"` when rooted). -/
def renderDir (rooted : Bool) (parts : List (List Char)) : String :=
  match parts with
  | [] => if rooted then "/" else "."
  | _ =>
    (if rooted then "/" else "") ++
      String.intercalate "/" (parts.map (fun p => String.mk p))

/-- The module key of a path: `Path(path).parent.as_posix()`.  The source's
conditional falling back to `'.'` when the parent equals `Path('.')` is the
identity, because `as_posix()` of `Path('.')` is already `"."`. -/
def module_of (path : String) : String :=
  renderDir (isAbs path) (pathParts path).dropLast

/-- The running per-key tallies while the aggregation loop runs, before the
final pass derives `total_churn`. -/
structure PreMetric where
  added : Int
  removed : Int
deriving DecidableEq

/-- Component-wise sum of tallies. -/
def padd (v w : PreMetric) : PreMetric :=
  ⟨v.added + w.added, v.removed + w.removed⟩

/-- A finished metric entry of the output document. -/
structure Metric where
  added : Int
  removed : Int
  total_churn : Int
deriving DecidableEq

/-- Association-list lookup, the membership test of the Python `dict`s
(which are modelled as insertion-ordered association lists). -/
def lookupA {α : Type} : List (String × α) → String → Option α
  | [], _ => none
  | (k, v) :: rest, key => if k = key then some v else lookupA rest key

/-- The tally a `defaultdict` answers for a key: the stored entry, or the
zero tally for an absent key. -/
def pmVal (o : Option PreMetric) : PreMetric := o.getD ⟨0, 0⟩

/-- One `defaultdict` update `d[key]['added'] += a; d[key]['removed'] += r`,
creating the zero entry first when `key` is absent. -/
def bump (m : List (String × PreMetric)) (key : String) (a r : Int) :
    List (String × PreMetric) :=
  match m with
  | [] => [(key, padd ⟨0, 0⟩ ⟨a, r⟩)]
  | (k, v) :: rest =>
    if k = key then (k, padd v ⟨a, r⟩) :: rest
    else (k, v) :: bump rest key a r

/-- One record processed into one of the two dictionaries, under the key
function of that dictionary. -/
def aggStep (keyf : ChurnRecord → String) (m : List (String × PreMetric))
    (r : ChurnRecord) : List (String × PreMetric) :=
  bump m (keyf r) r.added r.removed

/-- The final pass of `aggregate_churn`: derive `total_churn = added +
removed` for every entry. -/
def totalPass (m : List (String × PreMetric)) : List (String × Metric) :=
  m.map (fun e => (e.1, ⟨e.2.added, e.2.removed, e.2.added + e.2.removed⟩))

/-- `aggregate_churn`: a single loop over the records updating the per-file
and per-module dictionaries, then the `total_churn` pass on each. -/
def aggregate_churn (recs : List ChurnRecord) :
    List (String × Metric) × List (String × Metric) :=
  let pair := recs.foldl
    (fun acc r =>
      (aggStep (fun r => r.path) acc.1 r,
       aggStep (fun r => module_of r.path) acc.2 r))
    ([], [])
  (totalPass pair.1, totalPass pair.2)

/-- Sum of a selected field over the records matching a predicate. -/
def recSum (sel : ChurnRecord → Int) (p : ChurnRecord → Bool)
    (recs : List ChurnRecord) : Int :=
  ((recs.filter p).map sel).sum

/-- Sum of a selected component over the tally entries whose key matches a
predicate. -/
def entrySum (sel : PreMetric → Int) (p : String → Bool)
    (m : List (String × PreMetric)) : Int :=
  ((m.filter (fun e => p e.1)).map (fun e => sel e.2)).sum

/-- Sum of a selected field over the finished metric entries whose key
matches a predicate. -/
def metricSum (sel : Metric → Int) (p : String → Bool)
    (m : List (String × Metric)) : Int :=
  ((m.filter (fun e => p e.1)).map (fun e => sel e.2)).sum

/-- The aggregate a key receives, described directly from the record list:
present exactly when some record maps to the key, with each field the sum
over the records that do. -/
def keyedMetric (keyf : ChurnRecord → String) (recs : List ChurnRecord)
    (k : String) : Option Metric :=
  if recs.any (fun r => keyf r == k) then
    some ⟨recSum (fun r => r.added) (fun r => keyf r == k) recs,
          recSum (fun r => r.removed) (fun r => keyf r == k) recs,
          recSum (fun r => r.added + r.removed) (fun r => keyf r == k) recs⟩
  else none

/-- Field-wise sum of two optional shard metrics, the merge of two
aggregation shards. -/
def mergeOpt : Option Metric → Option Metric → Option Metric
  | none, o => o
  | some v, none => some v
  | some v, some w =>
    some ⟨v.added + w.added, v.removed + w.removed,
          v.total_churn + w.total_churn⟩

/-- The captured result of the external `subprocess.run(['git', ...])`
call, supplied to the embedded pipeline as data. -/
structure GitResult where
  returncode : Int
  stdout : String
  stderr : String

/-- `run_git_log`: a non-zero exit raises `RuntimeError` (modelled as
`Except.error`) carrying the captured standard error; otherwise the standard
output is split into lines. -/
def run_git_log (result : GitResult) : Except String (List String) :=
  if result.returncode ≠ 0 then
    Except.error ("Git command failed: " ++ result.stderr)
  else Except.ok (splitlines result.stdout)

/-- The `main` sequence of the churn script up to aggregation: extraction,
then parsing, then aggregation, with a failed git command aborting before
any parsing or aggregation happens. -/
def churn_pipeline (git : GitResult) :
    Except String (List (String × Metric) × List (String × Metric)) :=
  match run_git_log git with
  | Except.error e => Except.error e
  | Except.ok lines => Except.ok (aggregate_churn (parse_git_numstat lines))

/-- A small concrete record list used to instantiate the aggregation
theorems. -/
def demoRecs : List ChurnRecord :=
  [⟨1, 2, "a/b.txt"⟩, ⟨3, 4, "c.txt"⟩, ⟨5, 6, "a/b.txt"⟩]

/-- A permutation of `demoRecs`, used to instantiate the commutativity
theorem. -/
def demoRecsPerm : List ChurnRecord :=
  [⟨3, 4, "c.txt"⟩, ⟨5, 6, "a/b.txt"⟩, ⟨1, 2, "a/b.txt"⟩]

end Churn

namespace Forecast

/-! ### `defect_forecast_streamlit.py` -/

/-- `np.mean` over exact rationals (`np.mean` of an empty list is NaN and is
never reached from the non-empty series the dashboard loads; over `ℚ` the
division by zero yields `0` there instead). -/
def mean (l : List ℚ) : ℚ := l.sum / (l.length : ℚ)

/-- The Python slice `data[-n:]`. -/
def lastN (l : List ℚ) (n : Nat) : List ℚ := l.drop (l.length - n)

/-- The value one `moving_average` iteration appends: the mean of the last
`window` elements of the working series, or of all of them when fewer than
`window` exist (`np.mean(data[-window:]) if len(data) >= window else
np.mean(data)`). -/
def maStep (window : Nat) (data : List ℚ) : ℚ :=
  if window ≤ data.length then mean (lastN data window) else mean data

/-- The `moving_average` loop run for a given number of remaining steps:
append `maStep` of the working series and feed the unrounded value back. -/
def maSteps (window : Nat) : Nat → List ℚ → List ℚ
  | 0, _ => []
  | Nat.succ k, data => maStep window data :: maSteps window k (data ++ [maStep window data])

/-- The `moving_average` branch: `horizon` iterations starting from the
historical series. -/
def moving_average_forecast (window : Nat) (y : List ℚ) (horizon : Nat) :
    List ℚ :=
  maSteps window horizon y

/-- The inner `for val in data[1:]` fold of the `ewma` branch, from running
state `s`. -/
def ewmaFoldFrom (alpha : ℚ) (s : ℚ) : List ℚ → ℚ
  | [] => s
  | v :: vs => ewmaFoldFrom alpha (alpha * v + (1 - alpha) * s) vs

/-- The `ewma` loop: each step refolds the whole growing series from its
first element and appends the result back.  The source indexes `data[0]`
and so raises on an empty series, which the dashboard never feeds it; the
empty case is modelled as producing no values. -/
def ewmaSteps (alpha : ℚ) : Nat → List ℚ → List ℚ
  | 0, _ => []
  | Nat.succ _, [] => []
  | Nat.succ k, d0 :: rest =>
    ewmaFoldFrom alpha d0 rest ::
      ewmaSteps alpha k (d0 :: (rest ++ [ewmaFoldFrom alpha d0 rest]))

/-- The `ewma` branch: `horizon` refold-and-append iterations. -/
def ewma_forecast (alpha : ℚ) (y : List ℚ) (horizon : Nat) : List ℚ :=
  ewmaSteps alpha horizon y

/-- The comparison point of the refinement claim, following the spec's
description of the standard incremental EWMA: one running state seeded by a
single fold over the history, each emitted forecast fed back as the next
observation. -/
def ewmaIncrSteps (alpha : ℚ) : Nat → ℚ → List ℚ
  | 0, _ => []
  | Nat.succ k, s => s :: ewmaIncrSteps alpha k (alpha * s + (1 - alpha) * s)

/-- Incremental running-state EWMA over a series, per the spec's words. -/
def ewma_incremental (alpha : ℚ) (y : List ℚ) (horizon : Nat) : List ℚ :=
  match y with
  | [] => []
  | d0 :: rest => ewmaIncrSteps alpha horizon (ewmaFoldFrom alpha d0 rest)

/-- `np.arange(n)` as exact rationals. -/
def rangeQ (n : Nat) : List ℚ := (List.range n).map (fun i : Nat => (i : ℚ))

/-- The `(index, value)` points `zip(np.arange(len(y)), y)` the linear fit
runs over. -/
def enumQ (ys : List ℚ) : List (ℚ × ℚ) :=
  (rangeQ ys.length).zip ys

/-- Sum of the x-coordinates of a point list. -/
def Sx (L : List (ℚ × ℚ)) : ℚ := (L.map (fun p => p.1)).sum

/-- Sum of the y-coordinates of a point list. -/
def Sy (L : List (ℚ × ℚ)) : ℚ := (L.map (fun p => p.2)).sum

/-- Sum of the products x·y of a point list. -/
def Sxy (L : List (ℚ × ℚ)) : ℚ := (L.map (fun p => p.1 * p.2)).sum

/-- Sum of the squares x·x of a point list. -/
def Sxx (L : List (ℚ × ℚ)) : ℚ := (L.map (fun p => p.1 * p.1)).sum

/-- The determinant of the degree-1 normal equations. -/
def fitDenom (L : List (ℚ × ℚ)) : ℚ :=
  (L.length : ℚ) * Sxx L - Sx L * Sx L

/-- Least-squares slope over a point list. -/
def fitSlope (L : List (ℚ × ℚ)) : ℚ :=
  ((L.length : ℚ) * Sxy L - Sx L * Sy L) / fitDenom L

/-- Least-squares intercept over a point list. -/
def fitIntercept (L : List (ℚ × ℚ)) : ℚ :=
  (Sy L - fitSlope L * Sx L) / (L.length : ℚ)

/-- `np.polyfit(x, y, 1)` as the closed-form solution of the normal
equations, exact over `ℚ`; returns `(slope, intercept)`. -/
def polyfit1 (ys : List ℚ) : ℚ × ℚ :=
  (fitSlope (enumQ ys), fitIntercept (enumQ ys))

/-- The `linear` branch: fit over all `(index, value)` pairs, then
`np.polyval` at the indices `len(y) .. len(y)+horizon-1`. -/
def linear_forecast (y : List ℚ) (horizon : Nat) : List ℚ :=
  (List.range horizon).map
    (fun j => (polyfit1 y).1 * ((y.length + j : Nat) : ℚ) + (polyfit1 y).2)

/-- Sum of squared errors of the line `x ↦ m·x + b` over a point list, the
objective `np.polyfit` minimises. -/
def SSE (L : List (ℚ × ℚ)) (m b : ℚ) : ℚ :=
  (L.map (fun p => (p.2 - (m * p.1 + b)) ^ 2)).sum

/-- The dashboard's column auto-detection: the first column whose lowercased
name contains `token` (`[c for c in df.columns if token in c.lower()][0]`);
`none` models the `st.error` + `st.stop` path. -/
def detectColumn (token : String) (cols : List String) : Option String :=
  match cols.filter (fun c => containsSub token.data (lowerStr c)) with
  | [] => none
  | c :: _ => some c

/-- Minimum of a series (`0` only for the empty series the claims exclude). -/
def listMin : List ℚ → ℚ
  | [] => 0
  | x :: xs => xs.foldl min x

/-- Maximum of a series (`0` only for the empty series the claims exclude). -/
def listMax : List ℚ → ℚ
  | [] => 0
  | x :: xs => xs.foldl max x

end Forecast

/-! ## Theorems -/

namespace Churn

theorem numstat_parse_aux (line : String) :
    (parseNumstatLine line).isSome ↔
      (pyStrip line ≠ "" ∧
       isPrefixCh "commit".data (pyStrip line).data = false ∧
       ∃ a r p, (splitOnChar '\t' (pyStrip line).data).map String.mk = [a, r, p] ∧
         (pyInt? a).isSome ∧ (pyInt? r).isSome) := by
  by_cases h1 : (pyStrip line).data = []
  · have he : pyStrip line = "" := String.ext h1
    simp [parseNumstatLine, h1, he]
  · have hA : pyStrip line ≠ "" := fun he => h1 (by rw [he])
    by_cases h2 : isPrefixCh "commit".data (pyStrip line).data = true
    · simp [parseNumstatLine, h1, h2]
    · have hB : isPrefixCh "commit".data (pyStrip line).data = false :=
        Bool.eq_false_iff.mpr h2
      simp only [parseNumstatLine, h1, hB, if_neg, if_false, ite_false,
        Bool.false_eq_true, not_false_eq_true, hA, true_and]
      rcases hL : (splitOnChar '\t' (pyStrip line).data).map String.mk with
        _ | ⟨a, _ | ⟨r, _ | ⟨p, _ | ⟨q, rest⟩⟩⟩⟩ <;>
        simp only [Option.isSome_some, Option.isSome_none]
      · simp
      · simp
      · simp
      · rcases ha : pyInt? a with _ | ai <;> rcases hr : pyInt? r with _ | ri <;>
          simp [ha, hr, hA] <;>
          exact ⟨a, r, ⟨rfl, rfl⟩, by simp [ha], by simp [hr]⟩
      · simp

/-- C2: the numstat parser returns a record for exactly those lines that,
after stripping, are non-empty, do not start with the commit-header marker,
split into exactly three tab-separated fields, and whose first two fields
parse as integers; every other line is silently skipped, and the parser is a
total function (no input line raises). -/
theorem numstat_parse_policy :
    (∀ lines, parse_git_numstat lines = lines.filterMap parseNumstatLine) ∧
    (∀ line, (parseNumstatLine line).isSome ↔
      (pyStrip line ≠ "" ∧
       isPrefixCh "commit".data (pyStrip line).data = false ∧
       ∃ a r p, (splitOnChar '\t' (pyStrip line).data).map String.mk = [a, r, p] ∧
         (pyInt? a).isSome ∧ (pyInt? r).isSome)) :=
  ⟨fun _ => rfl, numstat_parse_aux⟩

/-- A well-formed numstat line is accepted and a binary-file placeholder
line is skipped, by the parse-policy theorem at concrete inputs. -/
theorem numstat_parse_policy_witness :
    (parseNumstatLine "3\t4\tsrc/a.py").isSome = true ∧
    (parseNumstatLine "-\t-\tlogo.png").isSome = false :=
  ⟨(numstat_parse_policy.2 "3\t4\tsrc/a.py").mpr
      ⟨by decide, by decide, "3", "4", "src/a.py", by decide, by decide, by decide⟩,
   by
    have h := (numstat_parse_policy.2 "-\t-\tlogo.png").not
    simp only [Bool.not_eq_true, Option.not_isSome, Option.isNone_iff_eq_none] at h
    decide⟩

theorem splitOnChar_ne_nil (sep : Char) (l : List Char) : splitOnChar sep l ≠ [] := by
  induction l with
  | nil => simp [splitOnChar]
  | cons c cs ih =>
    by_cases h : c = sep
    · simp [splitOnChar, h]
    · simp only [splitOnChar, h, if_false, ite_false]
      rcases hcs : splitOnChar sep cs with _ | ⟨h0, t0⟩
      · exact (ih hcs).elim
      · simp

theorem splitOnChar_append (sep : Char) (xs ys : List Char) :
    splitOnChar sep (xs ++ sep :: ys) = splitOnChar sep xs ++ splitOnChar sep ys := by
  induction xs with
  | nil => simp [splitOnChar]
  | cons c cs ih =>
    rcases hcs : splitOnChar sep cs with _ | ⟨h0, t0⟩
    · exact (splitOnChar_ne_nil sep cs hcs).elim
    · by_cases h : c = sep
      · simp [splitOnChar, h, ih]
      · simp [splitOnChar, h, ih, hcs]

theorem splitOnChar_no_sep (sep : Char) (l : List Char) (h : sep ∉ l) :
    splitOnChar sep l = [l] := by
  induction l with
  | nil => rfl
  | cons c cs ih =>
    have hc : ¬c = sep := fun he => h (he ▸ List.mem_cons_self c cs)
    have hcs : sep ∉ cs := fun hm => h (List.mem_cons_of_mem c hm)
    simp [splitOnChar, hc, ih hcs]

theorem lookupA_bump_self (m : List (String × PreMetric)) (k : String) (a r : Int) :
    lookupA (bump m k a r) k = some (padd (pmVal (lookupA m k)) ⟨a, r⟩) := by
  induction m with
  | nil => simp [bump, lookupA, pmVal]
  | cons e rest ih =>
    obtain ⟨k', v⟩ := e
    by_cases h : k' = k
    · subst h
      simp [bump, lookupA, pmVal]
    · simp [bump, lookupA, h, ih]

theorem lookupA_bump_other (m : List (String × PreMetric)) (bk lk : String)
    (a r : Int) (h : lk ≠ bk) :
    lookupA (bump m bk a r) lk = lookupA m lk := by
  induction m with
  | nil => simp [bump, lookupA, Ne.symm h]
  | cons e rest ih =>
    obtain ⟨k', v⟩ := e
    by_cases h' : k' = bk
    · subst h'
      simp [bump, lookupA, Ne.symm h]
    · by_cases h'' : k' = lk <;> simp [bump, lookupA, h', h'', h, ih]

theorem lookupA_bump_isSome (m : List (String × PreMetric)) (bk lk : String)
    (a r : Int) :
    (lookupA (bump m bk a r) lk).isSome = ((bk == lk) || (lookupA m lk).isSome) := by
  by_cases h : bk = lk
  · subst h
    rw [lookupA_bump_self]
    simp
  · rw [lookupA_bump_other m bk lk a r (fun he => h he.symm)]
    simp [h]

theorem recSum_cons (sel : ChurnRecord → Int) (p : ChurnRecord → Bool)
    (r : ChurnRecord) (recs : List ChurnRecord) :
    recSum sel p (r :: recs) = (if p r then sel r else 0) + recSum sel p recs := by
  by_cases h : p r <;> simp [recSum, List.filter_cons, h]

theorem lookupA_fold_pm (keyf : ChurnRecord → String) (recs : List ChurnRecord) :
    ∀ (m : List (String × PreMetric)) (k : String),
      pmVal (lookupA (recs.foldl (aggStep keyf) m) k) =
        padd (pmVal (lookupA m k))
          ⟨recSum (fun r => r.added) (fun r => keyf r == k) recs,
           recSum (fun r => r.removed) (fun r => keyf r == k) recs⟩ := by
  induction recs with
  | nil =>
    intro m k
    simp [recSum, padd]
  | cons r rest ih =>
    intro m k
    rw [List.foldl_cons, ih]
    by_cases h : keyf r = k
    · simp only [aggStep, h]
      rw [lookupA_bump_self]
      simp only [recSum_cons, h, beq_self_eq_true, if_true, pmVal, Option.getD_some]
      simp [padd, PreMetric.mk.injEq]
      omega
    · simp only [aggStep]
      rw [lookupA_bump_other m (keyf r) k r.added r.removed (fun he => h he.symm)]
      have hb : (keyf r == k) = false := by simp [h]
      simp [recSum_cons, hb]

theorem lookupA_fold_isSome (keyf : ChurnRecord → String) (recs : List ChurnRecord) :
    ∀ (m : List (String × PreMetric)) (k : String),
      (lookupA (recs.foldl (aggStep keyf) m) k).isSome =
        ((lookupA m k).isSome || recs.any (fun r => keyf r == k)) := by
  induction recs with
  | nil =>
    intro m k
    simp
  | cons r rest ih =>
    intro m k
    rw [List.foldl_cons, ih]
    simp only [aggStep]
    rw [lookupA_bump_isSome]
    simp [List.any_cons, Bool.or_assoc, Bool.or_comm, Bool.or_left_comm]

theorem entrySum_cons (sel : PreMetric → Int) (p : String → Bool)
    (e : String × PreMetric) (rest : List (String × PreMetric)) :
    entrySum sel p (e :: rest) =
      (if p e.1 then sel e.2 else 0) + entrySum sel p rest := by
  by_cases h : p e.1 <;> simp [entrySum, List.filter_cons, h]

theorem entrySum_bump (sel : PreMetric → Int) (hz : sel ⟨0, 0⟩ = 0)
    (hadd : ∀ v w, sel (padd v w) = sel v + sel w)
    (p : String → Bool) (m : List (String × PreMetric)) (k : String) (a r : Int) :
    entrySum sel p (bump m k a r) =
      entrySum sel p m + (if p k then sel ⟨a, r⟩ else 0) := by
  induction m with
  | nil =>
    by_cases h : p k <;>
      simp [bump, entrySum_cons, entrySum, h, hadd, hz]
  | cons e rest ih =>
    obtain ⟨k', v⟩ := e
    by_cases h : k' = k
    · subst h
      rw [show bump ((k', v) :: rest) k' a r = (k', padd v ⟨a, r⟩) :: rest from by
        simp [bump]]
      rw [entrySum_cons, entrySum_cons]
      by_cases hp : p k' <;> simp [hp, hadd] <;> ring
    · rw [show bump ((k', v) :: rest) k a r = (k', v) :: bump rest k a r from by
        simp [bump, h]]
      rw [entrySum_cons, entrySum_cons, ih]
      ring

theorem entrySum_fold (sel : PreMetric → Int) (hz : sel ⟨0, 0⟩ = 0)
    (hadd : ∀ v w, sel (padd v w) = sel v + sel w)
    (p : String → Bool) (keyf : ChurnRecord → String) (recs : List ChurnRecord) :
    ∀ (m : List (String × PreMetric)),
      entrySum sel p (recs.foldl (aggStep keyf) m) =
        entrySum sel p m +
          recSum (fun r => sel ⟨r.added, r.removed⟩) (fun r => p (keyf r)) recs := by
  induction recs with
  | nil =>
    intro m
    simp [recSum]
  | cons r rest ih =>
    intro m
    rw [List.foldl_cons, ih, recSum_cons]
    simp only [aggStep]
    rw [entrySum_bump sel hz hadd]
    ring

theorem recSum_add (sel₁ sel₂ : ChurnRecord → Int) (p : ChurnRecord → Bool)
    (recs : List ChurnRecord) :
    recSum (fun r => sel₁ r + sel₂ r) p recs =
      recSum sel₁ p recs + recSum sel₂ p recs := by
  induction recs with
  | nil => simp [recSum]
  | cons q qs ih => by_cases hq : p q <;> simp [recSum_cons, hq, ih] <;> ring

theorem lookupA_totalPass (m : List (String × PreMetric)) (k : String) :
    lookupA (totalPass m) k =
      (lookupA m k).map (fun v => ⟨v.added, v.removed, v.added + v.removed⟩) := by
  induction m with
  | nil => simp [totalPass, lookupA]
  | cons e rest ih =>
    obtain ⟨k', v⟩ := e
    simp only [totalPass] at ih ⊢
    by_cases h : k' = k <;> simp [lookupA, h, ih]

theorem metricSum_totalPass (sel : Metric → Int) (p : String → Bool)
    (m : List (String × PreMetric)) :
    metricSum sel p (totalPass m) =
      entrySum (fun v => sel ⟨v.added, v.removed, v.added + v.removed⟩) p m := by
  induction m with
  | nil => simp [totalPass, metricSum, entrySum]
  | cons e rest ih =>
    by_cases h : p e.1 <;>
      simp [totalPass, metricSum, entrySum, List.filter_cons, h] <;>
      simpa [metricSum, entrySum] using ih

theorem aggregate_churn_eq (recs : List ChurnRecord) :
    aggregate_churn recs =
      (totalPass (recs.foldl (aggStep (fun r => r.path)) []),
       totalPass (recs.foldl (aggStep (fun r => module_of r.path)) [])) := by
  have pair_eq : ∀ (l : List ChurnRecord)
      (a b : List (String × PreMetric)),
      l.foldl (fun acc r =>
          (aggStep (fun r => r.path) acc.1 r,
           aggStep (fun r => module_of r.path) acc.2 r)) (a, b) =
        (l.foldl (aggStep (fun r => r.path)) a,
         l.foldl (aggStep (fun r => module_of r.path)) b) := by
    intro l
    induction l with
    | nil => intro a b; rfl
    | cons x xs ih => intro a b; simp [List.foldl_cons, ih]
  simp [aggregate_churn, pair_eq]

theorem lookupA_aggFold (keyf : ChurnRecord → String) (recs : List ChurnRecord)
    (k : String) :
    lookupA (totalPass (recs.foldl (aggStep keyf) [])) k = keyedMetric keyf recs k := by
  rw [lookupA_totalPass, keyedMetric]
  have hs := lookupA_fold_isSome keyf recs [] k
  have hv := lookupA_fold_pm keyf recs [] k
  simp only [lookupA, Option.isSome_none, Bool.false_or] at hs hv
  by_cases h : recs.any (fun r => keyf r == k)
  · rw [if_pos h]
    rcases ho : lookupA (recs.foldl (aggStep keyf) []) k with _ | v
    · rw [ho] at hs
      simp [h] at hs
    · rw [ho] at hv
      simp only [pmVal, Option.getD_some, Option.getD_none, padd] at hv
      have hzadd : v.added = recSum (fun r => r.added) (fun r => keyf r == k) recs := by
        rw [hv]
        simp
      have hzrem : v.removed = recSum (fun r => r.removed) (fun r => keyf r == k) recs := by
        rw [hv]
        simp
      simp [hzadd, hzrem, recSum_add]
  · rw [if_neg h]
    have hfalse : (lookupA (recs.foldl (aggStep keyf) []) k).isSome = false := by
      rw [hs]
      exact Bool.eq_false_iff.mpr h
    have hnone : lookupA (recs.foldl (aggStep keyf) []) k = none :=
      Option.not_isSome_iff_eq_none.mp (by simp [hfalse])
    rw [hnone]
    rfl

/-- C1: after aggregation, the per-file and per-module `total_churn` sums
both equal the grand total of `added + removed` over the records; each file
entry's fields are the sums over that file's records; each module entry's
fields are the sums over the file entries whose parent directory is that
module. -/
theorem churn_aggregation_sums (recs : List ChurnRecord) :
    (metricSum (fun v => v.total_churn) (fun _ => true) (aggregate_churn recs).1 =
        (recs.map (fun r => r.added + r.removed)).sum ∧
     metricSum (fun v => v.total_churn) (fun _ => true) (aggregate_churn recs).2 =
        (recs.map (fun r => r.added + r.removed)).sum) ∧
    (∀ p v, lookupA (aggregate_churn recs).1 p = some v →
      v.added = recSum (fun r => r.added) (fun r => r.path == p) recs ∧
      v.removed = recSum (fun r => r.removed) (fun r => r.path == p) recs ∧
      v.total_churn = recSum (fun r => r.added + r.removed) (fun r => r.path == p) recs) ∧
    (∀ mk v, lookupA (aggregate_churn recs).2 mk = some v →
      v.added = metricSum (fun w => w.added)
        (fun p => module_of p == mk) (aggregate_churn recs).1 ∧
      v.removed = metricSum (fun w => w.removed)
        (fun p => module_of p == mk) (aggregate_churn recs).1 ∧
      v.total_churn = metricSum (fun w => w.total_churn)
        (fun p => module_of p == mk) (aggregate_churn recs).1) := by
  have hgrand : ∀ keyf : ChurnRecord → String,
      metricSum (fun v => v.total_churn) (fun _ => true)
          (totalPass (recs.foldl (aggStep keyf) [])) =
        (recs.map (fun r => r.added + r.removed)).sum := by
    intro keyf
    rw [metricSum_totalPass,
      entrySum_fold _ (by simp) (by intro v w; simp [padd]; ring) _ keyf recs []]
    simp [entrySum, recSum, List.filter_true]
  have hfile : ∀ (mk : String) (sel : Metric → Int), sel ⟨0, 0, 0⟩ = 0 →
      (∀ x1 y1 x2 y2 : Int, sel ⟨x1 + x2, y1 + y2, x1 + x2 + (y1 + y2)⟩ =
        sel ⟨x1, y1, x1 + y1⟩ + sel ⟨x2, y2, x2 + y2⟩) →
      metricSum sel (fun p => module_of p == mk) (aggregate_churn recs).1 =
        recSum (fun r => sel ⟨r.added, r.removed, r.added + r.removed⟩)
          (fun r => module_of r.path == mk) recs := by
    intro mk sel hz0 hadd0
    rw [aggregate_churn_eq]
    dsimp only
    rw [metricSum_totalPass,
      entrySum_fold _ (by simpa using hz0)
        (by intro v w
            simpa [padd] using hadd0 v.added v.removed w.added w.removed)
        _ _ recs []]
    simp [entrySum]
  refine ⟨⟨?_, ?_⟩, ?_, ?_⟩
  · rw [aggregate_churn_eq]
    exact hgrand _
  · rw [aggregate_churn_eq]
    exact hgrand _
  · intro p v hpv
    rw [aggregate_churn_eq] at hpv
    dsimp only at hpv
    rw [lookupA_aggFold, keyedMetric] at hpv
    by_cases h : recs.any (fun r => r.path == p)
    · rw [if_pos (by simpa using h)] at hpv
      cases hpv
      exact ⟨rfl, rfl, rfl⟩
    · rw [if_neg (by simpa using h)] at hpv
      cases hpv
  · intro mk v hpv
    rw [aggregate_churn_eq] at hpv
    dsimp only at hpv
    rw [lookupA_aggFold, keyedMetric] at hpv
    by_cases h : recs.any (fun r => module_of r.path == mk)
    · rw [if_pos (by simpa using h)] at hpv
      cases hpv
      refine ⟨(hfile mk (fun w => w.added) rfl (by intro x1 y1 x2 y2; rfl)).symm,
              (hfile mk (fun w => w.removed) rfl (by intro x1 y1 x2 y2; rfl)).symm,
              (hfile mk (fun w => w.total_churn) rfl
                (by intro x1 y1 x2 y2; dsimp only; ring)).symm⟩
    · rw [if_neg (by simpa using h)] at hpv
      cases hpv

/-- The file entry of `"a/b.txt"` over the demo records, by the aggregation
sums theorem at a concrete input. -/
theorem churn_aggregation_sums_witness :
    (6 : Int) = recSum (fun r => r.added) (fun r => r.path == "a/b.txt") demoRecs ∧
    (8 : Int) = recSum (fun r => r.removed) (fun r => r.path == "a/b.txt") demoRecs ∧
    (14 : Int) = recSum (fun r => r.added + r.removed)
      (fun r => r.path == "a/b.txt") demoRecs :=
  (churn_aggregation_sums demoRecs).2.1 "a/b.txt" ⟨6, 8, 14⟩ (by decide)

theorem any_perm (l₁ l₂ : List ChurnRecord) (p : ChurnRecord → Bool)
    (h : l₁.Perm l₂) : l₁.any p = l₂.any p := by
  apply Bool.eq_iff_iff.mpr
  simp only [List.any_eq_true]
  exact ⟨fun ⟨x, hx, hp⟩ => ⟨x, h.mem_iff.mp hx, hp⟩,
         fun ⟨x, hx, hp⟩ => ⟨x, h.mem_iff.mpr hx, hp⟩⟩

theorem recSum_perm (sel : ChurnRecord → Int) (p : ChurnRecord → Bool)
    (l₁ l₂ : List ChurnRecord) (h : l₁.Perm l₂) :
    recSum sel p l₁ = recSum sel p l₂ :=
  ((h.filter p).map sel).sum_eq

theorem recSum_append (sel : ChurnRecord → Int) (p : ChurnRecord → Bool)
    (l₁ l₂ : List ChurnRecord) :
    recSum sel p (l₁ ++ l₂) = recSum sel p l₁ + recSum sel p l₂ := by
  simp [recSum, List.filter_append]

theorem recSum_of_any_false (sel : ChurnRecord → Int) (p : ChurnRecord → Bool)
    (recs : List ChurnRecord) (h : recs.any p = false) :
    recSum sel p recs = 0 := by
  have hnil : recs.filter p = [] := by
    rw [List.filter_eq_nil_iff]
    intro a ha
    simpa using (List.any_eq_false.mp h) a ha
  simp [recSum, hnil]

theorem keyedMetric_perm (keyf : ChurnRecord → String)
    (l₁ l₂ : List ChurnRecord) (k : String) (h : l₁.Perm l₂) :
    keyedMetric keyf l₁ k = keyedMetric keyf l₂ k := by
  simp only [keyedMetric, any_perm l₁ l₂ _ h, recSum_perm _ _ l₁ l₂ h]

theorem keyedMetric_append (keyf : ChurnRecord → String)
    (l₁ l₂ : List ChurnRecord) (k : String) :
    keyedMetric keyf (l₁ ++ l₂) k =
      mergeOpt (keyedMetric keyf l₁ k) (keyedMetric keyf l₂ k) := by
  simp only [keyedMetric, List.any_append]
  cases h1 : l₁.any (fun r => keyf r == k) <;>
    cases h2 : l₂.any (fun r => keyf r == k)
  · simp [mergeOpt]
  · simp only [Bool.false_or, if_true, if_false, Bool.false_eq_true, ite_false, ite_true]
    simp [mergeOpt, recSum_append, recSum_of_any_false _ _ _ h1]
  · simp only [Bool.or_false, if_true, if_false, Bool.false_eq_true, ite_false, ite_true]
    simp [mergeOpt, recSum_append, recSum_of_any_false _ _ _ h2]
  · simp [mergeOpt, recSum_append]

/-- C8: aggregation is order-independent — any permutation of the records
yields the same per-file and per-module metric maps — and shard-composable:
the aggregate of a concatenation is the field-wise merge of the shard
aggregates. -/
theorem churn_aggregation_commutative (l₁ l₂ ps : List ChurnRecord)
    (hperm : l₁.Perm l₂) :
    (∀ k, lookupA (aggregate_churn l₁).1 k = lookupA (aggregate_churn l₂).1 k) ∧
    (∀ k, lookupA (aggregate_churn l₁).2 k = lookupA (aggregate_churn l₂).2 k) ∧
    (∀ k, lookupA (aggregate_churn (l₁ ++ ps)).1 k =
      mergeOpt (lookupA (aggregate_churn l₁).1 k)
        (lookupA (aggregate_churn ps).1 k)) ∧
    (∀ k, lookupA (aggregate_churn (l₁ ++ ps)).2 k =
      mergeOpt (lookupA (aggregate_churn l₁).2 k)
        (lookupA (aggregate_churn ps).2 k)) := by
  have hchar1 : ∀ (l : List ChurnRecord) (k : String),
      lookupA (aggregate_churn l).1 k = keyedMetric (fun r => r.path) l k := by
    intro l k
    rw [aggregate_churn_eq]
    exact lookupA_aggFold _ l k
  have hchar2 : ∀ (l : List ChurnRecord) (k : String),
      lookupA (aggregate_churn l).2 k =
        keyedMetric (fun r => module_of r.path) l k := by
    intro l k
    rw [aggregate_churn_eq]
    exact lookupA_aggFold _ l k
  refine ⟨fun k => ?_, fun k => ?_, fun k => ?_, fun k => ?_⟩
  · rw [hchar1, hchar1]
    exact keyedMetric_perm _ l₁ l₂ k hperm
  · rw [hchar2, hchar2]
    exact keyedMetric_perm _ l₁ l₂ k hperm
  · rw [hchar1, hchar1, hchar1]
    exact keyedMetric_append _ l₁ ps k
  · rw [hchar2, hchar2, hchar2]
    exact keyedMetric_append _ l₁ ps k

/-- Permutation invariance of the file map at a concrete permuted pair of
record lists, by the commutativity theorem. -/
theorem churn_aggregation_commutative_witness :
    lookupA (aggregate_churn demoRecs).1 "a/b.txt" =
      lookupA (aggregate_churn demoRecsPerm).1 "a/b.txt" :=
  (churn_aggregation_commutative demoRecs demoRecsPerm [] (by decide)).1 "a/b.txt"

theorem pathParts_append (d f : String) (hf : '/' ∉ f.data) (hne : f ≠ "")
    (hdot : f ≠ ".") :
    pathParts (d ++ "/" ++ f) = pathParts d ++ [f.data] := by
  have hslash : ("/" : String).data = ['/'] := rfl
  have hdata : (d ++ "/" ++ f).data = d.data ++ '/' :: f.data := by
    rw [String.data_append, String.data_append, hslash]
    simp
  have h1 : f.data ≠ [] := fun he => hne (String.ext he)
  have h2 : f.data ≠ ['.'] := fun he => hdot (String.ext he)
  unfold pathParts
  rw [hdata, splitOnChar_append, splitOnChar_no_sep _ _ hf, List.filter_append]
  simp [h1, h2]

/-- C3: each record is aggregated under `module_of` of its path, which is
the parent-directory portion: `"a/b/c.txt"` lands in module `"a/b"`, any
path without a directory separator (a repository-root file such as
`"root.txt"`) lands in the sentinel module `"."`, and in general appending
`"/name"` to a directory yields that directory as the module key. -/
theorem module_key_derivation :
    (∀ (recs : List ChurnRecord) (k : String),
      lookupA (aggregate_churn recs).2 k =
        keyedMetric (fun r => module_of r.path) recs k) ∧
    module_of "a/b/c.txt" = "a/b" ∧
    module_of "root.txt" = "." ∧
    (∀ p : String, '/' ∉ p.data → module_of p = ".") ∧
    (∀ d f : String, '/' ∉ f.data → f ≠ "" → f ≠ "." →
      module_of (d ++ "/" ++ f) =
        renderDir (isAbs (d ++ "/" ++ f)) (pathParts d)) := by
  refine ⟨?_, by decide, by decide, ?_, ?_⟩
  · intro recs k
    rw [aggregate_churn_eq]
    exact lookupA_aggFold _ recs k
  · intro p hp
    have hno : module_of p = renderDir (isAbs p) (pathParts p).dropLast := rfl
    have habs : isAbs p = false := by
      unfold isAbs
      rcases hpd : p.data with _ | ⟨c, cs⟩
      · rfl
      · have : c ≠ '/' := fun he => hp (by rw [hpd, he]; exact List.mem_cons_self _ _)
        simp [this]
    have hsplit : splitOnChar '/' p.data = [p.data] := splitOnChar_no_sep _ _ hp
    rw [hno, habs]
    unfold pathParts
    rw [hsplit]
    by_cases hkeep : (p.data != [] && p.data != ['.']) = true
    · simp only [List.filter, hkeep]
      rfl
    · simp only [List.filter, hkeep]
      rfl
  · intro d f hf hne hdot
    unfold module_of
    rw [pathParts_append d f hf hne hdot, List.dropLast_concat]

/-- Module derivation at concrete inputs (`"root.txt"` to the sentinel,
`"a" ++ "/" ++ "b.txt"` to `"a"`), by the derivation theorem. -/
theorem module_key_derivation_witness :
    module_of "root.txt" = "." ∧
    module_of ("a" ++ "/" ++ "b.txt") =
      renderDir (isAbs ("a" ++ "/" ++ "b.txt")) (pathParts "a") :=
  ⟨module_key_derivation.2.2.2.1 "root.txt" (by decide),
   module_key_derivation.2.2.2.2 "a" "b.txt" (by decide) (by decide) (by decide)⟩

/-- C9: log extraction fails exactly on a non-zero git exit status, raising
the captured standard-error text and aborting the pipeline before any
parsing or aggregation; otherwise it returns the standard output split into
lines, which the pipeline parses and aggregates. -/
theorem git_log_error_propagation (git : GitResult) :
    (git.returncode ≠ 0 →
      run_git_log git = Except.error ("Git command failed: " ++ git.stderr) ∧
      churn_pipeline git = Except.error ("Git command failed: " ++ git.stderr)) ∧
    (git.returncode = 0 →
      run_git_log git = Except.ok (splitlines git.stdout) ∧
      churn_pipeline git =
        Except.ok (aggregate_churn (parse_git_numstat (splitlines git.stdout)))) := by
  constructor
  · intro h
    have hrun : run_git_log git = Except.error ("Git command failed: " ++ git.stderr) := by
      unfold run_git_log
      rw [if_pos h]
    exact ⟨hrun, by unfold churn_pipeline; rw [hrun]⟩
  · intro h
    have hrun : run_git_log git = Except.ok (splitlines git.stdout) := by
      unfold run_git_log
      rw [if_neg (by simp [h])]
    exact ⟨hrun, by unfold churn_pipeline; rw [hrun]⟩

/-- A failing and a succeeding captured git result pushed through the
error-propagation theorem. -/
theorem git_log_error_propagation_witness :
    churn_pipeline ⟨1, "", "boom"⟩ = Except.error "Git command failed: boom" ∧
    churn_pipeline ⟨0, "1\t2\tsrc/a.py", ""⟩ =
      Except.ok (aggregate_churn (parse_git_numstat
        (splitlines "1\t2\tsrc/a.py"))) :=
  ⟨((git_log_error_propagation ⟨1, "", "boom"⟩).1 (by decide)).2,
   ((git_log_error_propagation ⟨0, "1\t2\tsrc/a.py", ""⟩).2 rfl).2⟩

end Churn

namespace Forecast

theorem maSteps_length (window : Nat) :
    ∀ (k : Nat) (data : List ℚ), (maSteps window k data).length = k := by
  intro k
  induction k with
  | zero => intro data; rfl
  | succ k ih => intro data; simp [maSteps, ih]

theorem maSteps_getD (window : Nat) :
    ∀ (k : Nat) (data : List ℚ) (i : Nat), i < k →
      (maSteps window k data).getD i 0 =
        maStep window (data ++ (maSteps window k data).take i) := by
  intro k
  induction k with
  | zero => intro data i hi; exact absurd hi (Nat.not_lt_zero i)
  | succ k ih =>
    intro data i hi
    cases i with
    | zero => simp [maSteps]
    | succ j =>
      have hj : j < k := Nat.lt_of_succ_lt_succ hi
      simp only [maSteps, List.getD_cons_succ, List.take_succ_cons]
      rw [ih (data ++ [maStep window data]) j hj]
      congr 1
      simp

/-- C4: the moving-average branch emits exactly `horizon` values; the `i`-th
emitted value is the mean of the last `window` elements of the working
series `y ++ forecasts emitted before step i` (the mean of all of them when
fewer than `window` exist), each unrounded value being fed back; window 2
over `[1,2,3]` with horizon 2 yields `[2.5, 2.75]`. -/
theorem moving_average_recurrence (window : Nat) (y : List ℚ) (h : Nat)
    (hy : y ≠ []) (hw : 2 ≤ window) (hh : 1 ≤ h) :
    (moving_average_forecast window y h).length = h ∧
    (∀ i, i < h →
      (moving_average_forecast window y h).getD i 0 =
        (if window ≤ (y ++ (moving_average_forecast window y h).take i).length
         then mean (lastN (y ++ (moving_average_forecast window y h).take i) window)
         else mean (y ++ (moving_average_forecast window y h).take i))) ∧
    moving_average_forecast 2 [1, 2, 3] 2 = [5/2, 11/4] := by
  refine ⟨maSteps_length window h y, fun i hi => maSteps_getD window h y i hi, ?_⟩
  norm_num [moving_average_forecast, maSteps, maStep, mean, lastN]

/-- The moving-average example evaluated through the recurrence theorem at a
concrete input. -/
theorem moving_average_recurrence_witness :
    moving_average_forecast 2 [1, 2, 3] 2 = [5/2, 11/4] :=
  (moving_average_recurrence 2 [1, 2, 3] 2 (List.cons_ne_nil _ _)
    (le_refl 2) (by norm_num)).2.2

theorem ewmaFoldFrom_append (alpha : ℚ) :
    ∀ (rest : List ℚ) (s x : ℚ),
      ewmaFoldFrom alpha s (rest ++ [x]) =
        alpha * x + (1 - alpha) * ewmaFoldFrom alpha s rest := by
  intro rest
  induction rest with
  | nil => intro s x; simp [ewmaFoldFrom]
  | cons v vs ih =>
    intro s x
    simp only [List.cons_append, ewmaFoldFrom]
    exact ih (alpha * v + (1 - alpha) * s) x

theorem ewmaSteps_eq_incr (alpha : ℚ) :
    ∀ (k : Nat) (d0 : ℚ) (rest : List ℚ),
      ewmaSteps alpha k (d0 :: rest) =
        ewmaIncrSteps alpha k (ewmaFoldFrom alpha d0 rest) := by
  intro k
  induction k with
  | zero => intro d0 rest; rfl
  | succ k ih =>
    intro d0 rest
    simp only [ewmaSteps, ewmaIncrSteps]
    rw [ih d0 (rest ++ [ewmaFoldFrom alpha d0 rest]), ewmaFoldFrom_append]

/-- C5: the source's refold-from-scratch EWMA loop produces exactly the same
forecast values as the standard incremental EWMA that carries forward a
single running state (exact arithmetic). -/
theorem ewma_refold_matches_incremental (alpha : ℚ) (y : List ℚ) (h : Nat)
    (hy : y ≠ []) (h0 : 0 < alpha) (h1 : alpha < 1) (hh : 1 ≤ h) :
    ewma_forecast alpha y h = ewma_incremental alpha y h := by
  rcases y with _ | ⟨d0, rest⟩
  · exact absurd rfl hy
  · exact ewmaSteps_eq_incr alpha h d0 rest

/-- The refold/incremental agreement at a concrete series, smoothing factor
and horizon. -/
theorem ewma_refold_matches_incremental_witness :
    ewma_forecast (1/3) [1, 2] 2 = ewma_incremental (1/3) [1, 2] 2 :=
  ewma_refold_matches_incremental (1/3) [1, 2] 2 (List.cons_ne_nil _ _)
    (by norm_num) (by norm_num) (by norm_num)

theorem filter_head_eq_find (p : String → Bool) (l : List String) :
    (l.filter p).head? = l.find? p := by
  induction l with
  | nil => rfl
  | cons x xs ih =>
    by_cases h : p x <;> simp [List.filter_cons, h, ih]

theorem detectColumn_eq (token : String) (cols : List String) :
    detectColumn token cols =
      (cols.filter (fun c => containsSub token.data (lowerStr c))).head? := by
  rcases hf : cols.filter (fun c => containsSub token.data (lowerStr c)) with _ | ⟨c, t⟩ <;>
    simp [detectColumn, hf]

/-- C7: auto-detection selects the first column (in input order) whose
lowercased name contains the fixed token; the first match wins when several
match, none matching yields the failure path, and in particular headers
`["Week_Start","DefectCount"]` select `"DefectCount"` for defects and
`"Week_Start"` for weeks regardless of case. -/
theorem column_auto_detection :
    (∀ token cols, detectColumn token cols =
      cols.find? (fun c => containsSub token.data (lowerStr c))) ∧
    (∀ (token : String) (pre : List String) (c : String) (post : List String),
      containsSub token.data (lowerStr c) = true →
      (∀ c' ∈ pre, containsSub token.data (lowerStr c') = false) →
      detectColumn token (pre ++ c :: post) = some c) ∧
    (∀ token cols, detectColumn token cols = none ↔
      ∀ c ∈ cols, containsSub token.data (lowerStr c) = false) ∧
    detectColumn "defect" ["Week_Start", "DefectCount"] = some "DefectCount" ∧
    detectColumn "week" ["Week_Start", "DefectCount"] = some "Week_Start" := by
  refine ⟨?_, ?_, ?_, by decide, by decide⟩
  · intro token cols
    rw [detectColumn_eq, filter_head_eq_find]
  · intro token pre c post hc hpre
    rw [detectColumn_eq, List.filter_append]
    have hp : pre.filter (fun c' => containsSub token.data (lowerStr c')) = [] := by
      rw [List.filter_eq_nil_iff]
      intro a ha
      simp [hpre a ha]
    rw [hp, List.nil_append, List.filter_cons, if_pos (by simp [hc])]
    rfl
  · intro token cols
    rw [detectColumn_eq, List.head?_eq_none_iff, List.filter_eq_nil_iff]
    constructor
    · intro hall c hc
      exact Bool.eq_false_iff.mpr (hall c hc)
    · intro hall c hc
      simp [hall c hc]

/-- First-match-wins at a concrete split of the header list, by the
auto-detection theorem. -/
theorem column_auto_detection_witness :
    detectColumn "defect" (["Week_Start"] ++ "DefectCount" :: []) = some "DefectCount" :=
  column_auto_detection.2.1 "defect" ["Week_Start"] "DefectCount" []
    (by decide) (by decide)

theorem foldl_min_le_init (xs : List ℚ) : ∀ a : ℚ, xs.foldl min a ≤ a := by
  induction xs with
  | nil => intro a; simp
  | cons x xs ih => intro a; exact le_trans (ih (min a x)) (min_le_left a x)

theorem foldl_min_le_mem (xs : List ℚ) :
    ∀ (a x : ℚ), x ∈ xs → xs.foldl min a ≤ x := by
  induction xs with
  | nil => intro a x hx; cases hx
  | cons v vs ih =>
    intro a x hx
    rcases List.mem_cons.mp hx with rfl | hx'
    · exact le_trans (foldl_min_le_init vs (min a x)) (min_le_right a x)
    · exact ih (min a v) x hx'

theorem listMin_le (y : List ℚ) (x : ℚ) (hx : x ∈ y) : listMin y ≤ x := by
  rcases y with _ | ⟨v, vs⟩
  · cases hx
  · rcases List.mem_cons.mp hx with rfl | hx'
    · exact foldl_min_le_init vs x
    · exact foldl_min_le_mem vs v x hx'

theorem init_le_foldl_max (xs : List ℚ) : ∀ a : ℚ, a ≤ xs.foldl max a := by
  induction xs with
  | nil => intro a; simp
  | cons x xs ih => intro a; exact le_trans (le_max_left a x) (ih (max a x))

theorem mem_le_foldl_max (xs : List ℚ) :
    ∀ (a x : ℚ), x ∈ xs → x ≤ xs.foldl max a := by
  induction xs with
  | nil => intro a x hx; cases hx
  | cons v vs ih =>
    intro a x hx
    rcases List.mem_cons.mp hx with rfl | hx'
    · exact le_trans (le_max_right a x) (init_le_foldl_max vs (max a x))
    · exact ih (max a v) x hx'

theorem le_listMax (y : List ℚ) (x : ℚ) (hx : x ∈ y) : x ≤ listMax y := by
  rcases y with _ | ⟨v, vs⟩
  · cases hx
  · rcases List.mem_cons.mp hx with rfl | hx'
    · exact init_le_foldl_max vs x
    · exact mem_le_foldl_max vs v x hx'

theorem length_mul_le_sum (l : List ℚ) (lo : ℚ) (h : ∀ x ∈ l, lo ≤ x) :
    (l.length : ℚ) * lo ≤ l.sum := by
  induction l with
  | nil => simp
  | cons x xs ih =>
    simp only [List.length_cons, List.sum_cons]
    have h1 : lo ≤ x := h x (List.mem_cons_self x xs)
    have h2 : (xs.length : ℚ) * lo ≤ xs.sum :=
      ih (fun z hz => h z (List.mem_cons_of_mem x hz))
    have h3 : ((xs.length + 1 : Nat) : ℚ) * lo = (xs.length : ℚ) * lo + lo := by
      push_cast
      ring
    rw [h3]
    linarith

theorem sum_le_length_mul (l : List ℚ) (hi : ℚ) (h : ∀ x ∈ l, x ≤ hi) :
    l.sum ≤ (l.length : ℚ) * hi := by
  induction l with
  | nil => simp
  | cons x xs ih =>
    simp only [List.length_cons, List.sum_cons]
    have h1 : x ≤ hi := h x (List.mem_cons_self x xs)
    have h2 : xs.sum ≤ (xs.length : ℚ) * hi :=
      ih (fun z hz => h z (List.mem_cons_of_mem x hz))
    have h3 : ((xs.length + 1 : Nat) : ℚ) * hi = (xs.length : ℚ) * hi + hi := by
      push_cast
      ring
    rw [h3]
    linarith

theorem mean_bounds (l : List ℚ) (lo hi : ℚ) (hne : l ≠ [])
    (h : ∀ x ∈ l, lo ≤ x ∧ x ≤ hi) : lo ≤ mean l ∧ mean l ≤ hi := by
  have hlen : (0 : ℚ) < (l.length : ℚ) := by
    have : 0 < l.length := List.length_pos.mpr hne
    exact_mod_cast this
  constructor
  · rw [mean, le_div_iff₀ hlen]
    have := length_mul_le_sum l lo (fun x hx => (h x hx).1)
    linarith
  · rw [mean, div_le_iff₀ hlen]
    have := sum_le_length_mul l hi (fun x hx => (h x hx).2)
    linarith

theorem maStep_bounds (window : Nat) (data : List ℚ) (lo hi : ℚ)
    (hw : 1 ≤ window) (hne : data ≠ [])
    (hb : ∀ x ∈ data, lo ≤ x ∧ x ≤ hi) :
    lo ≤ maStep window data ∧ maStep window data ≤ hi := by
  unfold maStep
  by_cases hlen : window ≤ data.length
  · rw [if_pos hlen]
    have hsub : ∀ x ∈ lastN data window, lo ≤ x ∧ x ≤ hi :=
      fun x hx => hb x (List.drop_subset _ _ hx)
    have hne' : lastN data window ≠ [] := by
      unfold lastN
      rw [Ne, List.drop_eq_nil_iff]
      omega
    exact mean_bounds _ lo hi hne' hsub
  · rw [if_neg hlen]
    exact mean_bounds _ lo hi hne hb

theorem maSteps_bounds (window : Nat) (hw : 1 ≤ window) :
    ∀ (k : Nat) (data : List ℚ) (lo hi : ℚ), data ≠ [] →
      (∀ x ∈ data, lo ≤ x ∧ x ≤ hi) →
      ∀ v ∈ maSteps window k data, lo ≤ v ∧ v ≤ hi := by
  intro k
  induction k with
  | zero =>
    intro data lo hi _ _ v hv
    simp [maSteps] at hv
  | succ k ih =>
    intro data lo hi hne hb v hv
    simp only [maSteps] at hv
    rcases List.mem_cons.mp hv with rfl | hv'
    · exact maStep_bounds window data lo hi hw hne hb
    · refine ih (data ++ [maStep window data]) lo hi (by simp) ?_ v hv'
      intro x hx
      rcases List.mem_append.mp hx with hx1 | hx2
      · exact hb x hx1
      · rw [List.mem_singleton] at hx2
        subst hx2
        exact maStep_bounds window data lo hi hw hne hb

/-- C10: every moving-average forecast value lies between the minimum and
the maximum of the historical series — each step appends a mean of existing
working-series elements, so the working series never leaves that range. -/
theorem moving_average_within_bounds (window : Nat) (y : List ℚ) (h : Nat)
    (hy : y ≠ []) (hw : 2 ≤ window) (hh : 1 ≤ h) :
    ∀ v ∈ moving_average_forecast window y h, listMin y ≤ v ∧ v ≤ listMax y :=
  fun v hv =>
    maSteps_bounds window (by omega) h y (listMin y) (listMax y) hy
      (fun x hx => ⟨listMin_le y x hx, le_listMax y x hx⟩) v hv

/-- The first forecast value of the moving-average example bounded by the
series extremes, through the bounds theorem. -/
theorem moving_average_within_bounds_witness :
    listMin [1, 2, 3] ≤ (5/2 : ℚ) ∧ (5/2 : ℚ) ≤ listMax [1, 2, 3] :=
  moving_average_within_bounds 2 [1, 2, 3] 2 (List.cons_ne_nil _ _)
    (le_refl 2) (by norm_num) (5/2)
    (by norm_num [moving_average_forecast, maSteps, maStep, mean, lastN])

theorem residual_sum (L : List (ℚ × ℚ)) (m b : ℚ) :
    (L.map fun p => p.2 - (m * p.1 + b)).sum =
      Sy L - m * Sx L - (L.length : ℚ) * b := by
  induction L with
  | nil => simp [Sy, Sx]
  | cons q qs ih =>
    simp only [List.map_cons, List.sum_cons, Sy, Sx, List.length_cons]
    simp only [Sy, Sx] at ih
    rw [ih]
    push_cast
    ring

theorem xresidual_sum (L : List (ℚ × ℚ)) (m b : ℚ) :
    (L.map fun p => p.1 * (p.2 - (m * p.1 + b))).sum =
      Sxy L - m * Sxx L - b * Sx L := by
  induction L with
  | nil => simp [Sxy, Sxx, Sx]
  | cons q qs ih =>
    simp only [List.map_cons, List.sum_cons, Sxy, Sxx, Sx, List.length_cons]
    simp only [Sxy, Sxx, Sx] at ih
    rw [ih]
    ring

theorem SSE_decomp (L : List (ℚ × ℚ)) (m b m0 b0 : ℚ) :
    SSE L m b = SSE L m0 b0
      + 2 * (m0 - m) * (L.map fun p => p.1 * (p.2 - (m0 * p.1 + b0))).sum
      + 2 * (b0 - b) * (L.map fun p => p.2 - (m0 * p.1 + b0)).sum
      + (L.map fun p => ((m0 - m) * p.1 + (b0 - b)) ^ 2).sum := by
  induction L with
  | nil => simp [SSE]
  | cons q qs ih =>
    simp only [SSE, List.map_cons, List.sum_cons]
    simp only [SSE] at ih
    rw [ih]
    ring

theorem fitDenom_ne_nil (L : List (ℚ × ℚ)) (hd : fitDenom L ≠ 0) : L ≠ [] := by
  intro he
  subst he
  simp [fitDenom, Sxx, Sx] at hd

theorem length_ne_zero_q (L : List (ℚ × ℚ)) (h : L ≠ []) :
    (L.length : ℚ) ≠ 0 := by
  have h0 : L.length ≠ 0 := fun he => h (List.length_eq_zero.mp he)
  exact_mod_cast h0

theorem fit_normal_one (L : List (ℚ × ℚ)) (hd : fitDenom L ≠ 0) :
    (L.map fun p => p.2 - (fitSlope L * p.1 + fitIntercept L)).sum = 0 := by
  have hn : (L.length : ℚ) ≠ 0 := length_ne_zero_q L (fitDenom_ne_nil L hd)
  rw [residual_sum, fitIntercept]
  field_simp

theorem fit_normal_two (L : List (ℚ × ℚ)) (hd : fitDenom L ≠ 0) :
    (L.map fun p => p.1 * (p.2 - (fitSlope L * p.1 + fitIntercept L))).sum = 0 := by
  have hn : (L.length : ℚ) ≠ 0 := length_ne_zero_q L (fitDenom_ne_nil L hd)
  have hd' : (L.length : ℚ) * Sxx L - Sx L * Sx L ≠ 0 := by
    simpa [fitDenom] using hd
  rw [xresidual_sum, fitIntercept, fitSlope, fitDenom]
  field_simp
  ring

theorem fit_least_squares (L : List (ℚ × ℚ)) (hd : fitDenom L ≠ 0) (m b : ℚ) :
    SSE L (fitSlope L) (fitIntercept L) ≤ SSE L m b := by
  have hdec := SSE_decomp L m b (fitSlope L) (fitIntercept L)
  rw [fit_normal_one L hd, fit_normal_two L hd] at hdec
  simp only [mul_zero, add_zero] at hdec
  have hnn : 0 ≤
      (L.map fun p => ((fitSlope L - m) * p.1 + (fitIntercept L - b)) ^ 2).sum := by
    apply List.sum_nonneg
    intro x hx
    rcases List.mem_map.mp hx with ⟨p, _, rfl⟩
    positivity
  linarith

theorem zip_fst_sum (f : ℚ → ℚ) :
    ∀ (xs ys : List ℚ), xs.length = ys.length →
      ((xs.zip ys).map fun p => f p.1).sum = (xs.map f).sum := by
  intro xs
  induction xs with
  | nil => intro ys h; simp
  | cons x xs ih =>
    intro ys h
    rcases ys with _ | ⟨y, ys⟩
    · simp at h
    · simp only [List.zip_cons_cons, List.map_cons, List.sum_cons]
      rw [ih ys (by simpa using h)]

theorem rangeQ_len (n : Nat) : (rangeQ n).length = n := by
  unfold rangeQ
  rw [List.length_map, List.length_range]

theorem rangeQ_succ (n : Nat) : rangeQ (n + 1) = rangeQ n ++ [(n : ℚ)] := by
  unfold rangeQ
  rw [List.range_succ, List.map_append]
  rfl

theorem rangeQ_sum (n : Nat) :
    (rangeQ n).sum = (n : ℚ) * ((n : ℚ) - 1) / 2 := by
  induction n with
  | zero => simp [rangeQ]
  | succ n ih =>
    rw [rangeQ_succ, List.sum_append, ih]
    simp only [List.sum_cons, List.sum_nil, add_zero]
    push_cast
    ring

theorem rangeQ_sumsq (n : Nat) :
    ((rangeQ n).map fun x => x * x).sum =
      (n : ℚ) * ((n : ℚ) - 1) * (2 * (n : ℚ) - 1) / 6 := by
  induction n with
  | zero => simp [rangeQ]
  | succ n ih =>
    rw [rangeQ_succ, List.map_append, List.sum_append, ih]
    simp only [List.map_cons, List.map_nil, List.sum_cons, List.sum_nil, add_zero]
    push_cast
    ring

theorem enumQ_length (ys : List ℚ) : (enumQ ys).length = ys.length := by
  simp [enumQ, rangeQ_len]

theorem Sx_enumQ (ys : List ℚ) : Sx (enumQ ys) = (rangeQ ys.length).sum := by
  have := zip_fst_sum (fun x => x) (rangeQ ys.length) ys (rangeQ_len ys.length)
  simpa [Sx, enumQ] using this

theorem Sxx_enumQ (ys : List ℚ) :
    Sxx (enumQ ys) = ((rangeQ ys.length).map fun x => x * x).sum := by
  have := zip_fst_sum (fun x => x * x) (rangeQ ys.length) ys (rangeQ_len ys.length)
  simpa [Sxx, enumQ] using this

theorem fitDenom_enumQ (ys : List ℚ) :
    fitDenom (enumQ ys) =
      (ys.length : ℚ) ^ 2 * ((ys.length : ℚ) - 1) * ((ys.length : ℚ) + 1) / 12 := by
  unfold fitDenom
  rw [enumQ_length, Sx_enumQ, Sxx_enumQ, rangeQ_sum, rangeQ_sumsq]
  ring

theorem fitDenom_enumQ_pos (ys : List ℚ) (h2 : 2 ≤ ys.length) :
    0 < fitDenom (enumQ ys) := by
  rw [fitDenom_enumQ]
  have hn : (2 : ℚ) ≤ (ys.length : ℚ) := by exact_mod_cast h2
  have hp1 : (0 : ℚ) < (ys.length : ℚ) ^ 2 := by nlinarith
  have hp2 : (0 : ℚ) < (ys.length : ℚ) - 1 := by linarith
  have hp3 : (0 : ℚ) < (ys.length : ℚ) + 1 := by linarith
  exact div_pos (mul_pos (mul_pos hp1 hp2) hp3) (by norm_num)

/-- C6: the linear branch fits the first-degree least-squares polynomial to
the (index, value) pairs of the entire series — the fitted slope/intercept
minimise the sum of squared errors over those points — and evaluates it at
the `horizon` index positions immediately following the series; over
`[2,4,6]` with horizon 2 it returns `[8,10]`. -/
theorem linear_fit_forecast (y : List ℚ) (h : Nat) (hy : 2 ≤ y.length)
    (hh : 1 ≤ h) :
    (∀ m b, SSE (enumQ y) (polyfit1 y).1 (polyfit1 y).2 ≤ SSE (enumQ y) m b) ∧
    linear_forecast y h = (List.range h).map
      (fun j => (polyfit1 y).1 * ((y.length + j : Nat) : ℚ) + (polyfit1 y).2) ∧
    linear_forecast [2, 4, 6] 2 = [8, 10] := by
  refine ⟨?_, rfl, ?_⟩
  · intro m b
    exact fit_least_squares (enumQ y) (ne_of_gt (fitDenom_enumQ_pos y hy)) m b
  · norm_num [linear_forecast, polyfit1, fitSlope, fitIntercept, fitDenom,
      Sx, Sy, Sxy, Sxx, enumQ, rangeQ, List.range_succ]

/-- The perfectly linear example pushed through the linear-fit theorem. -/
theorem linear_fit_forecast_witness :
    linear_forecast [2, 4, 6] 2 = [8, 10] :=
  (linear_fit_forecast [2, 4, 6] 2 (by norm_num) (by norm_num)).2.2

end Forecast
